import Mathlib

/-!
Shallow embedding of `src/include/bitmanip/wbits.hpp` (namespace
`bitmanip`).

A machine word of width `w` is modeled as a `Nat`, reduced modulo `2 ^ w`
exactly where the C++ code relies on fixed-width unsigned wraparound; a
word array is a `List Nat`, least-significant word first, whose length is
the `count` argument of the C++ functions.  The single-word rotate and
population-count collaborators (`bitrot.hpp`, `bitcount.hpp`) and
`divCeil` (`intdiv.hpp`) are not among the given sources and are modelled
from the spec, which treats them as external black boxes.
-/

/-- Modelled from the spec: single-word left rotate (`rotateLeft` of
`bitrot.hpp`, not in the sources): rotate the `w`-bit word `x` left by
`s` bits circularly; the callers only use `0 < s < w`. -/
def rotateLeft (w x s : Nat) : Nat :=
  ((x <<< s) ||| (x >>> (w - s))) % 2 ^ w

/-- Modelled from the spec: single-word right rotate (`rotateRight` of
`bitrot.hpp`, not in the sources). -/
def rotateRight (w x s : Nat) : Nat :=
  ((x >>> s) ||| (x <<< (w - s))) % 2 ^ w

/-- One iteration of the whole-word phase of `wide::leftShift`
(wbits.hpp:70-73): `dest[i] = dest[i-1]` for `i` from `count-1` down to
`1`, then `dest[0] = 0`. -/
def wordUp : List Nat → List Nat
  | [] => []
  | x :: xs => 0 :: (x :: xs).dropLast

/-- One iteration of the whole-word phase of `wide::rightShift`
(wbits.hpp:97-100): `dest[i] = dest[i+1]` for `i` from `0` to `count-2`,
then `dest[count-1] = 0`. -/
def wordDown : List Nat → List Nat
  | [] => []
  | _ :: xs => xs ++ [0]

/-- The loop `for (; shift >= typeBits; shift -= typeBits)` of
`wide::leftShift` (wbits.hpp:69-74).  Each iteration decreases `shift` by
`w ≥ 1`, so starting the fuel at the initial `shift` makes the fueled
recursion compute the C++ loop exactly; it returns the array together
with the remaining sub-word shift. -/
def leftShiftLoopF (w : Nat) : Nat → List Nat → Nat → List Nat × Nat
  | 0, a, shift => (a, shift)
  | fuel + 1, a, shift =>
    if w ≤ shift then leftShiftLoopF w fuel (wordUp a) (shift - w)
    else (a, shift)

/-- The loop `for (; shift >= typeBits; shift -= typeBits)` of
`wide::rightShift` (wbits.hpp:96-101), fueled like `leftShiftLoopF`. -/
def rightShiftLoopF (w : Nat) : Nat → List Nat → Nat → List Nat × Nat
  | 0, a, shift => (a, shift)
  | fuel + 1, a, shift =>
    if w ≤ shift then rightShiftLoopF w fuel (wordDown a) (shift - w)
    else (a, shift)

/-- The loop `for (i = count - 1; i-- > 0;)` of `wide::leftShift`
(wbits.hpp:84-88): iteration `i` reads `dest[i]`, rotates it by the
sub-word shift `s`, and writes `shifted & ~carryMask` to `dest[i]` and
`shifted & carryMask` to `dest[i+1]`.  The first `Nat` argument is the
number of remaining iterations: a call with `n` performs iterations
`i = n-1, …, 0`. -/
def leftSubLoop (w s cm : Nat) : Nat → List Nat → List Nat
  | 0, a => a
  | n + 1, a =>
    leftSubLoop w s cm n
      ((a.set n (rotateLeft w (a.getD n 0) s &&& ((2 ^ w - 1) ^^^ cm))).set
        (n + 1) (rotateLeft w (a.getD n 0) s &&& cm))

/-- `wide::leftShift(dest, shift, count)` (wbits.hpp:64-89), with `count`
the length of the list: the whole-word loop, the `shift == 0`
short-circuit, `carryMask = ~(~0 << shift)` (a `w`-bit computation), the
direct shift `dest[count-1] <<= shift`, and the rotate-and-split loop. -/
def leftShift (w : Nat) (a : List Nat) (shift : Nat) : List Nat :=
  let count := a.length
  let p := leftShiftLoopF w shift a shift
  if p.2 = 0 then p.1
  else
    let cm := (2 ^ w - 1) ^^^ (((2 ^ w - 1) <<< p.2) % 2 ^ w)
    let b := p.1.set (count - 1) ((p.1.getD (count - 1) 0 <<< p.2) % 2 ^ w)
    leftSubLoop w p.2 cm (count - 1) b

/-- The loop `for (i = 1; i < count; ++i)` of `wide::rightShift`
(wbits.hpp:111-115): iteration `i` reads `dest[i]`, rotates it right by
`s`, and writes `shifted & ~carryMask` to `dest[i]` and
`shifted & carryMask` to `dest[i-1]`.  The first `Nat` argument is the
number of remaining iterations, the second the current index `i`. -/
def rightSubLoop (w s cm : Nat) : Nat → Nat → List Nat → List Nat
  | 0, _, a => a
  | f + 1, i, a =>
    rightSubLoop w s cm f (i + 1)
      ((a.set i (rotateRight w (a.getD i 0) s &&& ((2 ^ w - 1) ^^^ cm))).set
        (i - 1) (rotateRight w (a.getD i 0) s &&& cm))

/-- `wide::rightShift(dest, shift, count)` (wbits.hpp:91-116):
`carryMask = ~(~0 >> shift)`, the direct shift `dest[0] >>= shift`, and
the ascending rotate-and-split loop. -/
def rightShift (w : Nat) (a : List Nat) (shift : Nat) : List Nat :=
  let count := a.length
  let p := rightShiftLoopF w shift a shift
  if p.2 = 0 then p.1
  else
    let cm := (2 ^ w - 1) ^^^ ((2 ^ w - 1) >>> p.2)
    let b := p.1.set 0 (p.1.getD 0 0 >>> p.2)
    rightSubLoop w p.2 cm (count - 1) 1 b

/-- Modelled from the spec: single-word population count (`popCount` of
`bitcount.hpp`, not in the sources): the number of set bits of a word. -/
def popCount1 (n : Nat) : Nat :=
  if h : n = 0 then 0 else n % 2 + popCount1 (n / 2)
decreasing_by exact Nat.div_lt_self (Nat.pos_of_ne_zero h) (by omega)

/-- `wide::popCount(input, count)` (wbits.hpp:14-22): the sum of the
single-word pop counts over the array, accumulated left to right. -/
def popCountArr (a : List Nat) : Nat :=
  a.foldl (fun r x => r + popCount1 x) 0

/-- Modelled from the spec: `divCeil` (`intdiv.hpp`, not in the sources):
ceiling division, so that `size = ceil(BITS / wordBits)`. -/
def divCeil (x y : Nat) : Nat := (x + y - 1) / y

/-- `Bits::size_ = divCeil(BITS, sizeof(valueType) * 8)` (wbits.hpp:126)
with `valueType = uintmax_t`, taken as the canonical 64-bit word
(`sizeof(valueType) = 8` bytes). -/
def size_ (BITS : Nat) : Nat := divCeil BITS (8 * 8)

/-- `Bits::bitSpill = BITS % (sizeof(valueType) * size_)` (wbits.hpp:128).
The source multiplies `size_` by `sizeof(valueType)` (= 8 bytes), not by
the word width in bits. -/
def bitSpill (BITS : Nat) : Nat := BITS % (8 * size_ BITS)

/-- `Bits::spillMask = ~valueType{0} << bitSpill` (wbits.hpp:130): the
64-bit left shift of the all-ones word, taken modulo `2 ^ 64` (in C++ the
shift is undefined for `bitSpill ≥ 64`; claims restrict to
`bitSpill < 64` where the mask's value matters). -/
def spillMask (BITS : Nat) : Nat := ((2 ^ 64 - 1) <<< bitSpill BITS) % 2 ^ 64

/-- `Bits::fixBack` (wbits.hpp:132-135): `data_[size() - 1] &= spillMask`. -/
def fixBack (BITS : Nat) (a : List Nat) : List Nat :=
  a.set (size_ BITS - 1) (a.getD (size_ BITS - 1) 0 &&& spillMask BITS)

/-- `Bits::Bits(valueType value)` (wbits.hpp:144-148): zero-initialize
the word array, place `value` in word 0, then apply `fixBack`. -/
def bitsFromValue (BITS v : Nat) : List Nat :=
  fixBack BITS ((List.replicate (size_ BITS) 0).set 0 v)

/-- `Bits::operator=(valueType value)` (wbits.hpp:194-199): `clear()`
(every word set to 0), then `data_[0] = value`; no `fixBack`. -/
def bitsAssign (BITS v : Nat) : List Nat :=
  (List.replicate (size_ BITS) 0).set 0 v

/-- `Bits::operator bool` (wbits.hpp:174-180): true iff some word is
nonzero, scanning from word 0 upward and short-circuiting. -/
def bitsToBool (a : List Nat) : Bool :=
  a.any fun x => x != 0

/-- The C++ `~` on a 64-bit word: complement within the word width. -/
def wnot (x : Nat) : Nat := (2 ^ 64 - 1) ^^^ x

/-- `Bits::operator~` (wbits.hpp:182-187): `wide::bitNot` over all words
(`out[i] = ~out[i]`, wbits.hpp:32-38), then `fixBack`. -/
def bitsNot (BITS : Nat) (a : List Nat) : List Nat :=
  fixBack BITS (a.map wnot)

/-- The spill masking invariant stated by the spec: all bits at positions
`≥ BITS` within the topmost word are zero.  The topmost word covers bit
positions `64 * (size - 1), …, 64 * size - 1`, so the word-local cutoff
is `BITS - 64 * (size - 1)`. -/
def spillInvariant (BITS : Nat) (a : List Nat) : Prop :=
  a.getD (size_ BITS - 1) 0 >>> (BITS - 64 * (size_ BITS - 1)) = 0

/-! ### List helper lemmas -/

lemma getD_replicate_zero (n i : Nat) :
    (List.replicate n (0 : Nat)).getD i 0 = 0 := by
  induction n generalizing i with
  | zero => simp
  | succ n ih => cases i <;> simp [List.replicate_succ, ih]

lemma set_replicate_zero (n i : Nat) :
    (List.replicate n (0 : Nat)).set i 0 = List.replicate n 0 := by
  induction n generalizing i with
  | zero => simp
  | succ n ih => cases i <;> simp [List.replicate_succ, ih]

lemma eq_replicate_of_getD (a : List Nat)
    (h : ∀ i, i < a.length → a.getD i 0 = 0) :
    a = List.replicate a.length 0 := by
  induction a with
  | nil => rfl
  | cons x xs ih =>
    have hx : x = 0 := by simpa using h 0 (by simp)
    have hxs : xs = List.replicate xs.length 0 :=
      ih fun i hi => by simpa using h (i + 1) (by simpa using hi)
    rw [List.length_cons, List.replicate_succ, hx, ← hxs]

lemma getD_dropLast (l : List Nat) (j : Nat) (h : j < l.length - 1) :
    l.dropLast.getD j 0 = l.getD j 0 := by
  have h1 : j < l.dropLast.length := by simpa [List.length_dropLast] using h
  have h2 : j < l.length := by omega
  rw [List.getD_eq_getElem _ _ h1, List.getD_eq_getElem _ _ h2]
  exact List.getElem_dropLast l j h1

/-! ### Basic facts about the whole-word phases -/

lemma wordUp_length (a : List Nat) : (wordUp a).length = a.length := by
  cases a <;> simp [wordUp]

lemma wordDown_length (a : List Nat) : (wordDown a).length = a.length := by
  cases a <;> simp [wordDown]

lemma wordUp_replicate (n : Nat) :
    wordUp (List.replicate n (0 : Nat)) = List.replicate n 0 := by
  cases n with
  | zero => rfl
  | succ n =>
    rw [List.replicate_succ, wordUp]
    congr 1
    rw [show (0 : Nat) :: List.replicate n (0 : Nat)
          = List.replicate n (0 : Nat) ++ [0] by
        rw [← List.replicate_succ, List.replicate_succ'],
      List.dropLast_concat]

lemma wordDown_replicate (n : Nat) :
    wordDown (List.replicate n (0 : Nat)) = List.replicate n 0 := by
  cases n with
  | zero => rfl
  | succ n => rw [List.replicate_succ, wordDown, ← List.replicate_succ',
      List.replicate_succ]

lemma wordUp_getD_zero (a : List Nat) : (wordUp a).getD 0 0 = 0 := by
  cases a <;> simp [wordUp]

lemma wordUp_getD_succ (a : List Nat) (i : Nat) (h : i + 1 < a.length) :
    (wordUp a).getD (i + 1) 0 = a.getD i 0 := by
  cases a with
  | nil => simp at h
  | cons x xs =>
    rw [wordUp, List.getD_cons_succ]
    exact getD_dropLast _ _ (by simp at h ⊢; omega)

lemma wordDown_getD (a : List Nat) (i : Nat) :
    (wordDown a).getD i 0 = if i + 1 < a.length then a.getD (i + 1) 0 else 0 := by
  cases a with
  | nil => simp [wordDown]
  | cons x xs =>
    rw [wordDown, List.length_cons]
    by_cases h : i < xs.length
    · rw [List.getD_append _ _ _ _ h, if_pos (by omega), List.getD_cons_succ]
    · rw [if_neg (by omega), List.getD_append_right _ _ _ _ (by omega)]
      rcases Nat.lt_or_ge (i - xs.length) 1 with h1 | h1
      · interval_cases h2 : i - xs.length
        simp
      · exact List.getD_eq_default _ _ (by simpa using h1)

/-! ### The whole-word loops drive every word to zero once they have run
at least `count` iterations -/

lemma leftShiftLoopF_replicate (w : Nat) :
    ∀ fuel shift n,
      (leftShiftLoopF w fuel (List.replicate n 0) shift).1
        = List.replicate n 0 := by
  intro fuel
  induction fuel with
  | zero => intro shift n; rfl
  | succ fuel ih =>
    intro shift n
    rw [leftShiftLoopF]
    split
    · rw [wordUp_replicate]; exact ih _ _
    · rfl

lemma rightShiftLoopF_replicate (w : Nat) :
    ∀ fuel shift n,
      (rightShiftLoopF w fuel (List.replicate n 0) shift).1
        = List.replicate n 0 := by
  intro fuel
  induction fuel with
  | zero => intro shift n; rfl
  | succ fuel ih =>
    intro shift n
    rw [rightShiftLoopF]
    split
    · rw [wordDown_replicate]; exact ih _ _
    · rfl

lemma leftShiftLoopF_zeroize (w : Nat) (hw : 0 < w) :
    ∀ fuel shift a k, shift ≤ fuel →
      (∀ i, i < k → a.getD i 0 = 0) →
      (a.length - k) * w ≤ shift →
      (leftShiftLoopF w fuel a shift).1 = List.replicate a.length 0 := by
  intro fuel
  induction fuel with
  | zero =>
    intro shift a k hsf hk hlen
    have hs0 : shift = 0 := by omega
    subst hs0
    have hz : (a.length - k) * w = 0 := by omega
    have hlk : a.length ≤ k := by
      rcases Nat.mul_eq_zero.1 hz with h | h <;> omega
    have ha : a = List.replicate a.length 0 :=
      eq_replicate_of_getD a fun i hi => hk i (lt_of_lt_of_le hi hlk)
    exact ha ▸ rfl
  | succ fuel ih =>
    intro shift a k hsf hk hlen
    rw [leftShiftLoopF]
    by_cases hc : w ≤ shift
    · rw [if_pos hc]
      by_cases hlk : a.length ≤ k
      · have ha : a = List.replicate a.length 0 :=
          eq_replicate_of_getD a fun i hi => hk i (lt_of_lt_of_le hi hlk)
        rw [ha, wordUp_replicate, leftShiftLoopF_replicate w fuel _ _]
        simp
      · push_neg at hlk
        have hstep := ih (shift - w) (wordUp a) (k + 1) (by omega)
          (fun i hi => by
            cases i with
            | zero => exact wordUp_getD_zero a
            | succ j =>
              rw [wordUp_getD_succ a j (by omega)]
              exact hk j (by omega))
          (by
            rw [wordUp_length]
            have h1 : (a.length - (k + 1)) * w + w = (a.length - k) * w := by
              have h2 : a.length - (k + 1) + 1 = a.length - k := by omega
              rw [← h2, Nat.succ_mul]
            omega)
        rw [wordUp_length] at hstep
        exact hstep
    · rw [if_neg hc]
      have hlk : a.length ≤ k := by
        by_contra hcon
        push_neg at hcon
        have h1 : 1 ≤ a.length - k := by omega
        have h2 : w ≤ (a.length - k) * w := by
          calc w = 1 * w := (Nat.one_mul w).symm
          _ ≤ (a.length - k) * w := Nat.mul_le_mul_right w h1
        omega
      have ha : a = List.replicate a.length 0 :=
        eq_replicate_of_getD a fun i hi => hk i (lt_of_lt_of_le hi hlk)
      exact ha ▸ rfl

lemma rightShiftLoopF_zeroize (w : Nat) (hw : 0 < w) :
    ∀ fuel shift a k, shift ≤ fuel →
      (∀ i, a.length - k ≤ i → a.getD i 0 = 0) →
      (a.length - k) * w ≤ shift →
      (rightShiftLoopF w fuel a shift).1 = List.replicate a.length 0 := by
  intro fuel
  induction fuel with
  | zero =>
    intro shift a k hsf hk hlen
    have hs0 : shift = 0 := by omega
    subst hs0
    have hz : (a.length - k) * w = 0 := by omega
    have hlk : a.length ≤ k := by
      rcases Nat.mul_eq_zero.1 hz with h | h <;> omega
    have ha : a = List.replicate a.length 0 :=
      eq_replicate_of_getD a fun i _ => hk i (by omega)
    exact ha ▸ rfl
  | succ fuel ih =>
    intro shift a k hsf hk hlen
    rw [rightShiftLoopF]
    by_cases hc : w ≤ shift
    · rw [if_pos hc]
      by_cases hlk : a.length ≤ k
      · have ha : a = List.replicate a.length 0 :=
          eq_replicate_of_getD a fun i _ => hk i (by omega)
        rw [ha, wordDown_replicate, rightShiftLoopF_replicate w fuel _ _]
        simp
      · push_neg at hlk
        have hstep := ih (shift - w) (wordDown a) (k + 1) (by omega)
          (fun i hi => by
            rw [wordDown_length] at hi
            rw [wordDown_getD]
            split
            · exact hk (i + 1) (by omega)
            · rfl)
          (by
            rw [wordDown_length]
            have h1 : (a.length - (k + 1)) * w + w = (a.length - k) * w := by
              have h2 : a.length - (k + 1) + 1 = a.length - k := by omega
              rw [← h2, Nat.succ_mul]
            omega)
        rw [wordDown_length] at hstep
        exact hstep
    · rw [if_neg hc]
      have hlk : a.length ≤ k := by
        by_contra hcon
        push_neg at hcon
        have h1 : 1 ≤ a.length - k := by omega
        have h2 : w ≤ (a.length - k) * w := by
          calc w = 1 * w := (Nat.one_mul w).symm
          _ ≤ (a.length - k) * w := Nat.mul_le_mul_right w h1
        omega
      have ha : a = List.replicate a.length 0 :=
        eq_replicate_of_getD a fun i _ => hk i (by omega)
      exact ha ▸ rfl

/-! ### The sub-word loops preserve the all-zero array -/

lemma rotateLeft_zero (w s : Nat) : rotateLeft w 0 s = 0 := by
  simp [rotateLeft]

lemma rotateRight_zero (w s : Nat) : rotateRight w 0 s = 0 := by
  simp [rotateRight]

lemma leftSubLoop_replicate (w s cm : Nat) :
    ∀ n m, leftSubLoop w s cm n (List.replicate m 0) = List.replicate m 0 := by
  intro n
  induction n with
  | zero => intro m; rfl
  | succ n ih =>
    intro m
    rw [leftSubLoop, getD_replicate_zero, rotateLeft_zero, Nat.zero_and,
      Nat.zero_and, set_replicate_zero, set_replicate_zero]
    exact ih m

lemma rightSubLoop_replicate (w s cm : Nat) :
    ∀ f i m, rightSubLoop w s cm f i (List.replicate m 0) = List.replicate m 0 := by
  intro f
  induction f with
  | zero => intro i m; rfl
  | succ f ih =>
    intro i m
    rw [rightSubLoop, getD_replicate_zero, rotateRight_zero, Nat.zero_and,
      Nat.zero_and, set_replicate_zero, set_replicate_zero]
    exact ih _ m

/-- C7: for every word array of `count ≥ 1` words of `w` bits and every
shift amount at least the total bit width `count * w`, both
`wide::leftShift` and `wide::rightShift` yield the all-zero array. -/
theorem c7_shift_ge_width_zeroizes (w : Nat) (a : List Nat) (shift : Nat)
    (hw : 0 < w) (hc : 1 ≤ a.length) (hs : a.length * w ≤ shift) :
    leftShift w a shift = List.replicate a.length 0 ∧
    rightShift w a shift = List.replicate a.length 0 := by
  constructor
  · have hz := leftShiftLoopF_zeroize w hw shift shift a 0 le_rfl
      (fun i hi => absurd hi (Nat.not_lt_zero i)) (by simpa using hs)
    simp only [leftShift]
    rw [hz]
    split
    · rfl
    · rw [getD_replicate_zero, Nat.zero_shiftLeft, Nat.zero_mod,
        set_replicate_zero, leftSubLoop_replicate]
  · have hz := rightShiftLoopF_zeroize w hw shift shift a 0 le_rfl
      (fun i hi => List.getD_eq_default _ _ (by omega)) (by simpa using hs)
    simp only [rightShift]
    rw [hz]
    split
    · rfl
    · rw [getD_replicate_zero, Nat.zero_shiftRight, set_replicate_zero,
        rightSubLoop_replicate]

/-- Witness for C7 at `w = 8`, `a = [3, 5]`, `shift = 16`. -/
theorem c7_shift_ge_width_zeroizes_witness :
    leftShift 8 [3, 5] 16 = List.replicate 2 0 ∧
    rightShift 8 [3, 5] 16 = List.replicate 2 0 :=
  c7_shift_ge_width_zeroizes 8 [3, 5] 16 (by decide) (by decide) (by decide)

/-! ### Access and shift-amount traces for the shift primitives (claim C8)

The traces below mirror, loop by loop, every array index the two shift
functions read or write and every single-word shift and rotate amount
they use; they are the shallow embedding of the functions' memory-access
and shift-construction behavior. -/

/-- Indices touched by the inner loop `for (i = count; i-- > 1;)` of one
`wide::leftShift` whole-word iteration: iteration `i` writes `dest[i]`
and reads `dest[i-1]`, for `i = n, …, 1`. -/
def downPairs : Nat → List Nat
  | 0 => []
  | n + 1 => (n + 1) :: n :: downPairs n

/-- Indices touched by one whole-word iteration of `wide::leftShift`:
the copy loop over `i = count-1, …, 1`, then the write `dest[0] = 0`. -/
def wordUpTrace (count : Nat) : List Nat := downPairs (count - 1) ++ [0]

/-- Indices touched by the inner loop `for (i = 0; i < count - 1; ++i)`
of one `wide::rightShift` whole-word iteration: iteration `i` reads
`dest[i+1]` and writes `dest[i]`, ascending from `i`, for `f`
iterations. -/
def upPairs : Nat → Nat → List Nat
  | 0, _ => []
  | f + 1, i => (i + 1) :: i :: upPairs f (i + 1)

/-- Indices touched by one whole-word iteration of `wide::rightShift`:
the copy loop over `i = 0, …, count-2`, then the write
`dest[count-1] = 0`. -/
def wordDownTrace (count : Nat) : List Nat := upPairs (count - 1) 0 ++ [count - 1]

/-- Indices touched by the whole-word loop of `wide::leftShift`, fueled
like `leftShiftLoopF`. -/
def leftLoopTraceF (w count : Nat) : Nat → Nat → List Nat
  | 0, _ => []
  | fuel + 1, shift =>
    if w ≤ shift then wordUpTrace count ++ leftLoopTraceF w count fuel (shift - w)
    else []

/-- Indices touched by the whole-word loop of `wide::rightShift`. -/
def rightLoopTraceF (w count : Nat) : Nat → Nat → List Nat
  | 0, _ => []
  | fuel + 1, shift =>
    if w ≤ shift then wordDownTrace count ++ rightLoopTraceF w count fuel (shift - w)
    else []

/-- The residual shift left over after the whole-word loop (the value of
`shift` at wbits.hpp:76 resp. wbits.hpp:103), fueled like the loops. -/
def shiftResidualF (w : Nat) : Nat → Nat → Nat
  | 0, shift => shift
  | fuel + 1, shift => if w ≤ shift then shiftResidualF w fuel (shift - w) else shift

/-- The residual sub-word shift of a call with amount `shift`. -/
def shiftResidual (w shift : Nat) : Nat := shiftResidualF w shift shift

/-- Indices touched by the sub-word loop of `wide::leftShift`: iteration
`i` reads and writes `dest[i]` and writes `dest[i+1]`, for
`i = n-1, …, 0`. -/
def leftSubTrace : Nat → List Nat
  | 0 => []
  | n + 1 => n :: n :: (n + 1) :: leftSubTrace n

/-- Indices touched by the sub-word loop of `wide::rightShift`:
iteration `i` reads and writes `dest[i]` and writes `dest[i-1]`,
ascending from `i`, for `f` iterations. -/
def upTriples : Nat → Nat → List Nat
  | 0, _ => []
  | f + 1, i => i :: i :: (i - 1) :: upTriples f (i + 1)

/-- Every array index `wide::leftShift(dest, shift, count)` reads or
writes: the whole-word loop's accesses, then — unless the residual shift
is 0, in which case the function returns at wbits.hpp:77 — the direct
access to `dest[count-1]` and the sub-word loop's accesses. -/
def leftShiftTrace (w count shift : Nat) : List Nat :=
  leftLoopTraceF w count shift shift ++
    if shiftResidual w shift = 0 then []
    else (count - 1) :: leftSubTrace (count - 1)

/-- Every array index `wide::rightShift(dest, shift, count)` reads or
writes: the whole-word loop's accesses, then — unless the residual shift
is 0 — the direct access to `dest[0]` and the sub-word loop's accesses
for `i = 1, …, count-1`. -/
def rightShiftTrace (w count shift : Nat) : List Nat :=
  rightLoopTraceF w count shift shift ++
    if shiftResidual w shift = 0 then []
    else 0 :: upTriples (count - 1) 1

/-- The amounts of every single-word shift or rotate `wide::leftShift`
and `wide::rightShift` perform: the `carryMask` computation, the direct
shift of the boundary word, and every single-word rotation all use the
residual sub-word shift, and none is performed at all when the `shift == 0`
short-circuit fires before `carryMask` is computed. -/
def shiftAmountTrace (w shift : Nat) : List Nat :=
  if shiftResidual w shift = 0 then [] else [shiftResidual w shift]

lemma mem_downPairs {x : Nat} : ∀ {n : Nat}, x ∈ downPairs n → x ≤ n := by
  intro n
  induction n with
  | zero => intro h; simp [downPairs] at h
  | succ n ih =>
    intro h
    rw [downPairs, List.mem_cons, List.mem_cons] at h
    rcases h with h | h | h
    · omega
    · omega
    · exact le_trans (ih h) (by omega)

lemma mem_upPairs {x : Nat} : ∀ f i, x ∈ upPairs f i → x ≤ i + f := by
  intro f
  induction f with
  | zero => intro i h; simp [upPairs] at h
  | succ f ih =>
    intro i h
    rw [upPairs, List.mem_cons, List.mem_cons] at h
    rcases h with h | h | h
    · omega
    · omega
    · have := ih (i + 1) h; omega

lemma mem_leftSubTrace {x : Nat} : ∀ {n : Nat}, x ∈ leftSubTrace n → x ≤ n := by
  intro n
  induction n with
  | zero => intro h; simp [leftSubTrace] at h
  | succ n ih =>
    intro h
    rw [leftSubTrace, List.mem_cons, List.mem_cons, List.mem_cons] at h
    rcases h with h | h | h | h
    · omega
    · omega
    · omega
    · exact le_trans (ih h) (by omega)

lemma mem_upTriples {x : Nat} : ∀ f i, x ∈ upTriples f i → x < i + f := by
  intro f
  induction f with
  | zero => intro i h; simp [upTriples] at h
  | succ f ih =>
    intro i h
    rw [upTriples, List.mem_cons, List.mem_cons, List.mem_cons] at h
    rcases h with h | h | h | h
    · omega
    · omega
    · omega
    · have := ih (i + 1) h; omega

lemma mem_wordUpTrace {x count : Nat} (h : x ∈ wordUpTrace count) :
    x ≤ count - 1 := by
  rw [wordUpTrace, List.mem_append] at h
  rcases h with h | h
  · exact mem_downPairs h
  · simp at h; omega

lemma mem_wordDownTrace {x count : Nat} (h : x ∈ wordDownTrace count) :
    x ≤ count - 1 := by
  rw [wordDownTrace, List.mem_append] at h
  rcases h with h | h
  · have := mem_upPairs _ _ h; omega
  · simp at h; omega

lemma mem_leftLoopTraceF {w count x : Nat} :
    ∀ fuel shift, x ∈ leftLoopTraceF w count fuel shift → x ≤ count - 1 := by
  intro fuel
  induction fuel with
  | zero => intro shift h; simp [leftLoopTraceF] at h
  | succ fuel ih =>
    intro shift h
    rw [leftLoopTraceF] at h
    by_cases hc : w ≤ shift
    · rw [if_pos hc, List.mem_append] at h
      rcases h with h | h
      · exact mem_wordUpTrace h
      · exact ih _ h
    · rw [if_neg hc] at h; simp at h

lemma mem_rightLoopTraceF {w count x : Nat} :
    ∀ fuel shift, x ∈ rightLoopTraceF w count fuel shift → x ≤ count - 1 := by
  intro fuel
  induction fuel with
  | zero => intro shift h; simp [rightLoopTraceF] at h
  | succ fuel ih =>
    intro shift h
    rw [rightLoopTraceF] at h
    by_cases hc : w ≤ shift
    · rw [if_pos hc, List.mem_append] at h
      rcases h with h | h
      · exact mem_wordDownTrace h
      · exact ih _ h
    · rw [if_neg hc] at h; simp at h

lemma shiftResidualF_lt {w : Nat} (hw : 0 < w) :
    ∀ fuel shift, shift ≤ fuel → shiftResidualF w fuel shift < w := by
  intro fuel
  induction fuel with
  | zero => intro shift h; rw [shiftResidualF]; omega
  | succ fuel ih =>
    intro shift h
    rw [shiftResidualF]
    by_cases hc : w ≤ shift
    · rw [if_pos hc]; exact ih _ (by omega)
    · rw [if_neg hc]; omega

/-- C8: for every `count ≥ 1` and every shift amount, `wide::leftShift`
and `wide::rightShift` access only array indices in `[0, count)` — in
particular with `count = 1` only the direct shift of the single word, no
neighbor — and every single-word shift or rotate they perform uses an
amount strictly between `0` and `wordBits` (the `shift == 0`
short-circuit fires before `carryMask` would be computed from a zero
residual, so a zero-amount or full-width word shift is never
constructed). -/
theorem c8_access_safety (w count shift : Nat) (hw : 0 < w) (hc : 1 ≤ count) :
    ((leftShiftTrace w count shift).all fun i => decide (i < count)) = true ∧
    ((rightShiftTrace w count shift).all fun i => decide (i < count)) = true ∧
    ((shiftAmountTrace w shift).all fun m => decide (0 < m) && decide (m < w)) = true := by
  have hres : shiftResidual w shift < w :=
    shiftResidualF_lt hw shift shift le_rfl
  refine ⟨?_, ?_, ?_⟩
  · rw [List.all_eq_true]
    intro x hx
    rw [decide_eq_true_eq]
    rw [leftShiftTrace, List.mem_append] at hx
    rcases hx with hx | hx
    · have := mem_leftLoopTraceF _ _ hx; omega
    · split at hx
      · simp at hx
      · rw [List.mem_cons] at hx
        rcases hx with hx | hx
        · omega
        · have := mem_leftSubTrace hx; omega
  · rw [List.all_eq_true]
    intro x hx
    rw [decide_eq_true_eq]
    rw [rightShiftTrace, List.mem_append] at hx
    rcases hx with hx | hx
    · have := mem_rightLoopTraceF _ _ hx; omega
    · split at hx
      · simp at hx
      · rw [List.mem_cons] at hx
        rcases hx with hx | hx
        · omega
        · have := mem_upTriples _ _ hx; omega
  · rw [List.all_eq_true]
    intro m hm
    rw [shiftAmountTrace] at hm
    split at hm
    · simp at hm
    · rw [List.mem_singleton] at hm
      subst hm
      simp only [Bool.and_eq_true, decide_eq_true_eq]
      omega

/-- Witness for C8 at `w = 8`, `count = 2`, `shift = 9`. -/
theorem c8_access_safety_witness :
    ((leftShiftTrace 8 2 9).all fun i => decide (i < 2)) = true ∧
    ((rightShiftTrace 8 2 9).all fun i => decide (i < 2)) = true ∧
    ((shiftAmountTrace 8 9).all fun m => decide (0 < m) && decide (m < 8)) = true :=
  c8_access_safety 8 2 9 (by decide) (by decide)

/-! ### Pop count (claim C9) -/

lemma foldl_popCount_init (l : List Nat) :
    ∀ init, l.foldl (fun r x => r + popCount1 x) init
      = init + l.foldl (fun r x => r + popCount1 x) 0 := by
  induction l with
  | nil => intro init; simp
  | cons x xs ih =>
    intro init
    rw [List.foldl_cons, List.foldl_cons, ih (init + popCount1 x),
      ih (0 + popCount1 x)]
    omega

/-- C9: `wide::popCount` is additive over concatenation of word arrays,
and the pop count of a zero-length array is `0`. -/
theorem c9_popCount_additive (a b : List Nat) :
    popCountArr (a ++ b) = popCountArr a + popCountArr b ∧
    popCountArr [] = 0 := by
  constructor
  · rw [popCountArr, popCountArr, popCountArr, List.foldl_append,
      foldl_popCount_init b]
  · rfl

/-! ### Claim C1: the concrete shift scenario -/

/-- C1: `wide::leftShift` does not realize the multi-word logical shift
on the spec's concrete scenario: for the 2-word array of 8-bit words
`[0b00000001, 0b00000000]` and shift 9, the code produces
`[0, 0]` instead of the claimed `[0b00000000, 0b00000010]` (value 512),
because the sub-word loop overwrites the neighbor word with the carry
bits instead of merging them into it. -/
theorem c1_left_shift_concrete_eval :
    leftShift 8 [1, 0] 9 = [0, 0] ∧ ([0, 0] : List Nat) ≠ [0, 2] := by
  exact ⟨by decide, by decide⟩

/-! ### Claim C4: the lossy round trip -/

/-- C4: the left-then-right round trip does not reproduce the original
array with only its top `s` bits zeroed: for `w = 8`, `arr = [0xFF, 0]`,
`s = 1`, the code yields `[0x80, 0]` where the claim demands
`[0xFF, 0]`. -/
theorem c4_roundtrip_eval :
    rightShift 8 (leftShift 8 [255, 0] 1) 1 = [128, 0] ∧
    ([128, 0] : List Nat) ≠ [255, 0] := by
  exact ⟨by decide, by decide⟩

/-! ### Claim C2: the spill masking invariant -/

/-- C2: the constructor from a single word violates the spill masking
invariant: `Bits<1>` constructed from the word `2` stores word 0 = `2`,
whose bit 1 (a position `≥ BITS = 1`) is set, because `fixBack` ANDs the
topmost word with `~0 << bitSpill`, keeping the high bits instead of
clearing them. -/
theorem c2_ctor_spill_violation :
    bitsFromValue 1 2 = [2] ∧ ¬ spillInvariant 1 [2] := by
  refine ⟨by decide, ?_⟩
  unfold spillInvariant
  decide

/-! ### Claim C5: the logical identity laws -/

/-- C5: the double-complement law fails on the code: the `Bits<1>` value
with word 0 = `1` satisfies the spill invariant, yet `~~x` evaluates to
the zero value, not `x`, because each `fixBack` clears the low
`bitSpill` bits of the topmost word. -/
theorem c5_double_complement_eval :
    spillInvariant 1 [1] ∧ bitsNot 1 (bitsNot 1 [1]) = [0] ∧
    ([0] : List Nat) ≠ [1] := by
  refine ⟨?_, by decide, by decide⟩
  unfold spillInvariant
  decide

/-! ### Claim C3: spill-bit count and spill mask semantics -/

/-- C3 counterexample: at `BITS = 12` the code's spill-bit count is
`12 % (8 * 1) = 4`, not the claimed `BITS mod (wordBits * size) = 12`,
and the fix-up mask keeps the high bits of the topmost word
(`0xFFF & spillMask = 0xFF0`) instead of the low `spillBits` bits. -/
theorem c3_spill_counterexample :
    bitSpill 12 = 4 ∧ 12 % (64 * size_ 12) = 12 ∧ (4 : Nat) ≠ 12 ∧
    (0xFFF &&& spillMask 12) = 0xFF0 ∧ (0xFF0 : Nat) ≠ 0xFFF := by
  decide

/-- C3 (amended): for every `BITS > 0`, the spill-bit count equals
`BITS mod (sizeof(valueType) * size)` = `BITS mod (8 * size)`; when it is
`0` the spill mask is all-ones; and otherwise (whenever the spill count
is below the word width, so the C++ shift is defined) the fix-up mask
applied to the topmost word keeps exactly the bits at positions
`≥ spillBits` and clears the low `spillBits` bits. -/
theorem c3_spill_semantics (BITS x j : Nat) (hB : 0 < BITS)
    (hs : bitSpill BITS < 64) (hj : j < 64) :
    bitSpill BITS = BITS % (8 * size_ BITS) ∧
    (bitSpill BITS = 0 → spillMask BITS = 2 ^ 64 - 1) ∧
    (x &&& spillMask BITS).testBit j
      = (x.testBit j && decide (bitSpill BITS ≤ j)) := by
  refine ⟨rfl, ?_, ?_⟩
  · intro h
    rw [spillMask, h, Nat.shiftLeft_zero, Nat.mod_eq_of_lt]
    have : 0 < 2 ^ 64 := Nat.pos_pow_of_pos 64 (by omega)
    omega
  · rw [Nat.testBit_and]
    have hm : (spillMask BITS).testBit j = decide (bitSpill BITS ≤ j) := by
      rw [spillMask, Nat.testBit_mod_two_pow, Nat.testBit_shiftLeft,
        Nat.testBit_two_pow_sub_one]
      have h1 : j - bitSpill BITS < 64 := by omega
      simp [hj, h1, ge_iff_le]
    rw [hm]

/-- Witness for C3 (amended) at `BITS = 12`, `x = 0xFFF`, `j = 5`. -/
theorem c3_spill_semantics_witness :
    bitSpill 12 = 12 % (8 * size_ 12) ∧
    (bitSpill 12 = 0 → spillMask 12 = 2 ^ 64 - 1) ∧
    ((0xFFF : Nat) &&& spillMask 12).testBit 5
      = ((0xFFF : Nat).testBit 5 && decide (bitSpill 12 ≤ 5)) :=
  c3_spill_semantics 12 0xFFF 5 (by decide) (by decide) (by decide)

/-! ### Claim C6: boolean conversion -/

/-- C6 counterexample: the `Bits<1>` value constructed from the nonzero
word `1` converts to `false`, because the constructor's `fixBack` clears
bit 0. -/
theorem c6_nonzero_to_false :
    (1 : Nat) ≠ 0 ∧ bitsToBool (bitsFromValue 1 1) = false := by
  exact ⟨by decide, by decide⟩

lemma any_replicate_zero (n : Nat) :
    (List.replicate n (0 : Nat)).any (fun x => x != 0) = false := by
  induction n with
  | zero => rfl
  | succ n ih => rw [List.replicate_succ, List.any_cons, ih]; rfl

lemma size_pos (BITS : Nat) (hB : 0 < BITS) : 1 ≤ size_ BITS := by
  rw [size_, divCeil]
  exact Nat.div_pos (by omega) (by omega)

/-- C6 (amended): a value constructed from word `0` converts to `false`;
a value constructed from a nonzero word `v` converts to `true` exactly
when the stored word survives the constructor's spill mask: for
`size = 1` (widths up to one word) iff `v AND spillMask` is nonzero, and
for `size ≥ 2` always, since the mask is applied to the topmost word,
which is not word 0. -/
theorem c6_bool_conversion (BITS v : Nat) (hB : 0 < BITS) (hv : v < 2 ^ 64) :
    bitsToBool (bitsFromValue BITS 0) = false ∧
    (bitsToBool (bitsFromValue BITS v) = true ↔
      (if size_ BITS = 1 then v &&& spillMask BITS ≠ 0 else v ≠ 0)) := by
  obtain ⟨t, ht⟩ : ∃ t, size_ BITS = t + 1 :=
    ⟨size_ BITS - 1, by have := size_pos BITS hB; omega⟩
  cases t with
  | zero =>
    constructor
    · rw [bitsFromValue, fixBack, ht]
      simp [bitsToBool, Nat.zero_and]
    · rw [bitsFromValue, fixBack, ht, if_pos rfl]
      simp [bitsToBool, bne_iff_ne]
  | succ t =>
    have hrep : (List.replicate (t + 1 + 1) (0 : Nat)).set 0 v
        = v :: List.replicate (t + 1) 0 := by
      rw [List.replicate_succ, List.set_cons_zero]
    have hget : (v :: List.replicate (t + 1) (0 : Nat)).getD (t + 1) 0 = 0 := by
      rw [List.getD_cons_succ, getD_replicate_zero]
    have hfix : fixBack BITS (v :: List.replicate (t + 1) 0)
        = v :: List.replicate (t + 1) 0 := by
      rw [fixBack, ht]
      simp only [Nat.add_sub_cancel, hget, Nat.zero_and]
      rw [List.set_cons_succ, set_replicate_zero]
    constructor
    · rw [bitsFromValue, fixBack, ht, set_replicate_zero,
        getD_replicate_zero, Nat.zero_and, set_replicate_zero, bitsToBool]
      exact any_replicate_zero _
    · rw [bitsFromValue, ht, hrep, ← ht, hfix, if_neg (by omega)]
      rw [bitsToBool, List.any_cons, any_replicate_zero]
      simp [bne_iff_ne]

/-- Witness for C6 (amended) at `BITS = 1`, `v = 2`. -/
theorem c6_bool_conversion_witness :
    bitsToBool (bitsFromValue 1 0) = false ∧
    (bitsToBool (bitsFromValue 1 2) = true ↔
      (if size_ 1 = 1 then 2 &&& spillMask 1 ≠ 0 else (2 : Nat) ≠ 0)) :=
  c6_bool_conversion 1 2 (by decide) (by decide)

/-! ### Claim C10: assignment from a word skips the spill mask -/

/-- C10: `Bits::operator=(valueType)` leaves word 0 equal to the assigned
word exactly and all higher words zero, applying no spill-mask fix-up,
whereas the single-word constructor is exactly the same store followed by
`fixBack` — and the fix-up is not a no-op: at `BITS = 1`, assigning `1`
stores word 0 = `1` while constructing from `1` stores word 0 = `0`. -/
theorem c10_assign_no_mask (BITS v i : Nat) (hB : 0 < BITS) (hv : v < 2 ^ 64)
    (h1 : 1 ≤ i) (h2 : i < size_ BITS) :
    (bitsAssign BITS v).getD 0 0 = v ∧
    (bitsAssign BITS v).getD i 0 = 0 ∧
    bitsFromValue BITS v = fixBack BITS (bitsAssign BITS v) ∧
    (bitsAssign 1 1).getD 0 0 = 1 ∧ (bitsFromValue 1 1).getD 0 0 = 0 := by
  obtain ⟨t, ht⟩ : ∃ t, size_ BITS = t + 1 :=
    ⟨size_ BITS - 1, by have := size_pos BITS hB; omega⟩
  obtain ⟨j, hj⟩ : ∃ j, i = j + 1 := ⟨i - 1, by omega⟩
  refine ⟨?_, ?_, rfl, by decide, by decide⟩
  · rw [bitsAssign, ht, List.replicate_succ, List.set_cons_zero,
      List.getD_cons_zero]
  · rw [bitsAssign, ht, List.replicate_succ, List.set_cons_zero, hj,
      List.getD_cons_succ, getD_replicate_zero]

/-- Witness for C10 at `BITS = 128`, `v = 7`, `i = 1`. -/
theorem c10_assign_no_mask_witness :
    (bitsAssign 128 7).getD 0 0 = 7 ∧
    (bitsAssign 128 7).getD 1 0 = 0 ∧
    bitsFromValue 128 7 = fixBack 128 (bitsAssign 128 7) ∧
    (bitsAssign 1 1).getD 0 0 = 1 ∧ (bitsFromValue 1 1).getD 0 0 = 0 :=
  c10_assign_no_mask 128 7 1 (by decide) (by decide) (by decide) (by decide)
